import Mathlib

/-!
Formal model of the superdog-backend text-processing pipeline.

The definitions below are a shallow embedding of the Python sources
`docs/txt-to-csv-converter.py` and `scripts/ingest.py`.  Python strings are
modelled as `List Char` (lists of Unicode code points); byte sizes are the
UTF-8 encoded lengths computed explicitly.  Fallible or stateful pieces are
modelled with explicit state passing; the export packing loop (a `while` loop
in the source) is modelled with explicit fuel because the source loop does not
terminate on every input.
-/

set_option maxHeartbeats 1000000
set_option maxRecDepth 16384

namespace Superdog

/-- UTF-8 byte length of a single code point, as `len(ch.encode('utf-8'))`
computes it in Python. -/
def charUtf8Size (c : Char) : Nat :=
  if c.toNat < 0x80 then 1
  else if c.toNat < 0x800 then 2
  else if c.toNat < 0x10000 then 3
  else 4

/-- UTF-8 byte length of a Python string modelled as a list of code points:
`len(s.encode('utf-8'))`. -/
def utf8Len (s : List Char) : Nat := (s.map charUtf8Size).sum

/-! ## Size-Bounded Batch Packer (`write_csv_file` / `convert_to_csv`) -/

/-- A ContentRecord: the dictionaries built by `process_txt_file`, with the
seven string fields written by the CSV export. -/
structure Entry where
  type : List Char
  file_name : List Char
  title : List Char
  url : List Char
  video_id : List Char
  chapter : List Char
  content : List Char
  deriving DecidableEq

/-- Serialized size of one record:
`sum(len(str(value).encode('utf-8')) + 1 for value in entry.values())`. -/
def entrySize (e : Entry) : Nat :=
  (utf8Len e.type + 1) + (utf8Len e.file_name + 1) + (utf8Len e.title + 1) +
  (utf8Len e.url + 1) + (utf8Len e.video_id + 1) + (utf8Len e.chapter + 1) +
  (utf8Len e.content + 1)

/-- The fixed field ordering used by `convert_to_csv`. -/
def fieldnames : List (List Char) :=
  ["type".toList, "file_name".toList, "title".toList, "url".toList,
   "video_id".toList, "chapter".toList, "content".toList]

/-- Python's `','.join(...)`. -/
def joinComma : List (List Char) → List Char
  | [] => []
  | [x] => x
  | x :: xs => x ++ ',' :: joinComma xs

/-- `header_size = len(','.join(fieldnames).encode('utf-8')) + 2`. -/
def headerSize : Nat := utf8Len (joinComma fieldnames) + 2

/-- The `for entry in entries` loop of `write_csv_file`: `curSize` is
`current_size`; on the first record that would push the size over `maxSize`
the function returns the accumulated prefix and the whole remainder. -/
def writeCsvAux (maxSize : Nat) (curSize : Nat) : List Entry → List Entry × List Entry
  | [] => ([], [])
  | e :: rest =>
    if curSize + entrySize e > maxSize then ([], e :: rest)
    else
      let p := writeCsvAux maxSize (curSize + entrySize e) rest
      (e :: p.1, p.2)

/-- `write_csv_file(entries, fieldnames, output_file, max_size)`: returns the
batch to write and the remaining entries.  The size counter starts at the
header size. -/
def write_csv_file (entries : List Entry) (maxSize : Nat) : List Entry × List Entry :=
  writeCsvAux maxSize headerSize entries

/-- The `while remaining_entries:` loop of `convert_to_csv`, with explicit
fuel bounding the number of iterations (the source loop has no such bound and
does not terminate on every input).  Returns the batches produced by the first
`fuel` iterations together with the entries still remaining. -/
def packFuel (maxSize : Nat) : Nat → List Entry → List (List Entry) × List Entry
  | _, [] => ([], [])
  | 0, rem => ([], rem)
  | fuel + 1, rem =>
    let p := write_csv_file rem maxSize
    let q := packFuel maxSize fuel p.2
    (p.1 :: q.1, q.2)

/-- A record whose serialized size alone exceeds the 4 MiB ceiling: every
field empty except a 4194304-character ASCII content. -/
def bigEntry : Entry :=
  ⟨[], [], [], [], [], [], List.replicate 4194304 'a'⟩

/-- Small concrete record used to witness the amended packing theorem. -/
def recA : Entry :=
  ⟨"transcript".toList, "f".toList, [], [], [], [], "Hello.".toList⟩

/-- Second concrete record for the packing witness. -/
def recB : Entry :=
  ⟨"document".toList, "f".toList, [], [], [], [], "World.".toList⟩

/-! ## Sentence-Bounded Chunker (`split_content`) -/

/-- A sentence-terminator character, the character class `[.!?]` of
`re.split('([.!?]+)', content)`. -/
def isTermChar (c : Char) : Bool :=
  c = '.' || c = '!' || c = '?'

/-- ASCII whitespace as removed by Python's `str.strip()`.  (Python also
strips some further Unicode space code points; no claim depends on those, so
the model restricts the set to the six ASCII whitespace characters.) -/
def isPySpace (c : Char) : Bool :=
  c = ' ' || c = '\t' || c = '\n' || c = '\r' || c = '\x0b' || c = '\x0c'

/-- Python's `s.strip()`: drop whitespace from both ends. -/
def pyStrip (s : List Char) : List Char :=
  ((s.dropWhile isPySpace).reverse.dropWhile isPySpace).reverse

/-- Decomposition underlying `re.split('([.!?]+)', content)`: the leading run
of non-terminator characters, followed by alternating (terminator-run,
non-terminator-run) groups.  Runs are maximal; terminator runs are nonempty. -/
def splitTerm : List Char → List Char × List (List Char × List Char)
  | [] => ([], [])
  | c :: rest =>
    let r := splitTerm rest
    if isTermChar c then
      match r with
      | ([], g :: gs) => ([], (c :: g.1, g.2) :: gs)
      | (t, gs) => ([], ([c], t) :: gs)
    else (c :: r.1, r.2)

/-- Flatten the groups of `splitTerm` into the tail of the list returned by
`re.split` (separator piece, then text piece, alternating). -/
def seqFlat : List (List Char × List Char) → List (List Char)
  | [] => []
  | g :: gs => g.1 :: g.2 :: seqFlat gs

/-- `sentences = re.split('([.!?]+)', content)`: a list of odd length
alternating text piece, separator run, text piece, ... -/
def reSplitTerm (s : List Char) : List (List Char) :=
  (splitTerm s).1 :: seqFlat (splitTerm s).2

/-- The `for i in range(0, len(sentences)-1, 2)` re-pairing of
`split_content`: `sentence = sentences[i] + sentences[i+1]`.  Because the
range stops at `len(sentences)-1` and the split list has odd length, the
final dangling text piece is never paired and is dropped. -/
def pairUp : List (List Char) → List (List Char)
  | t :: sep :: rest => (t ++ sep) :: pairUp rest
  | _ => []

/-- The sentence sequence the chunker loop of `split_content` iterates over. -/
def sentence_list (s : List Char) : List (List Char) :=
  pairUp (reSplitTerm s)

/-- The greedy accumulation loop of `split_content`: `cur` is
`current_part`; a sentence that still fits (UTF-8 size of the extended buffer
at most `maxL`) is appended, otherwise the buffer is flushed (stripped, and
only if nonempty) and restarted with the sentence.  The final buffer is
flushed the same way. -/
def chunkLoop (maxL : Nat) : List (List Char) → List Char → List (List Char)
  | [], cur => if cur = [] then [] else [pyStrip cur]
  | s :: rest, cur =>
    if utf8Len (cur ++ s) ≤ maxL then chunkLoop maxL rest (cur ++ s)
    else if cur = [] then chunkLoop maxL rest s
    else pyStrip cur :: chunkLoop maxL rest s

/-- `split_content(content, max_length)`: return the content whole if it
already fits, else run the greedy sentence-accumulation loop. -/
def split_content (content : List Char) (maxLength : Nat) : List (List Char) :=
  if utf8Len content ≤ maxLength then [content]
  else chunkLoop maxLength (sentence_list content) []

/-! ## Document processing (`process_txt_file`) -/

/-- The literal transcript marker. -/
def tMarker : List Char := "TRANSCRIPTION:".toList

/-- The suffix following the first occurrence of `pat`, or `none` when `pat`
does not occur (Python's `pat in s` / the start of `re.search`). -/
def afterFirst (pat : List Char) : List Char → Option (List Char)
  | [] => if pat.isPrefixOf ([] : List Char) then some [] else none
  | c :: rest =>
    if pat.isPrefixOf (c :: rest) then some ((c :: rest).drop pat.length)
    else afterFirst pat rest

/-- Everything strictly before the first occurrence of `pat` (the whole list
when `pat` does not occur). -/
def beforeFirst (pat : List Char) : List Char → List Char
  | [] => []
  | c :: rest =>
    if pat.isPrefixOf (c :: rest) then []
    else c :: beforeFirst pat rest

/-- A run of two or more equals signs starts with this marker. -/
def eqMarker : List Char := "==".toList

/-- The extracted transcript:
`re.search(r'TRANSCRIPTION:(.*?)(?=={2,}|$)', content, re.DOTALL)` followed by
`.strip()`, with `""` when there is no match — the text after the first
marker, cut at the first `==`, stripped.  (Python's `$` may exclude one
trailing newline when no `==` follows; `strip` removes it in both readings.) -/
def transcriptOf (content : List Char) : List Char :=
  match afterFirst tMarker content with
  | some rest => pyStrip (beforeFirst eqMarker rest)
  | none => []

/-- Python's `content.split('\n')` (keeps empty pieces). -/
def splitOn (sep : Char) : List Char → List (List Char)
  | [] => [[]]
  | c :: r =>
    if c = sep then [] :: splitOn sep r
    else
      match splitOn sep r with
      | [] => [[c]]
      | l :: ls => (c :: l) :: ls

/-- `line.strip().startswith(('Lesson', 'Chapter'))`. -/
def startsLC (s : List Char) : Bool :=
  ("Lesson".toList).isPrefixOf s || ("Chapter".toList).isPrefixOf s

/-- Python's `' '.join(...)`. -/
def joinSpace : List (List Char) → List Char
  | [] => []
  | [b] => b
  | b :: bs => b ++ ' ' :: joinSpace bs

/-- The structured-document scan of `process_txt_file`, projected onto the
`content` fields of the emitted entries: `buf` is `content_buffer` (already
stripped, nonempty lines); a `Lesson`/`Chapter` line flushes the buffer
through `split_content`; the final buffer is flushed after the scan. -/
def structLoop : List (List Char) → List (List Char) → List (List Char)
  | [], buf => if buf = [] then [] else split_content (joinSpace buf) 2000
  | line :: rest, buf =>
    let st := pyStrip line
    if startsLC st then
      (if buf = [] then [] else split_content (joinSpace buf) 2000) ++ structLoop rest []
    else if st = [] then structLoop rest buf
    else structLoop rest (buf ++ [st])

/-- `process_txt_file`, projected onto the `content` field of each emitted
entry (the metadata fields `type`, `file_name`, `title`, `url`, `video_id`,
`chapter` are not modelled because no claim refers to them): a document
containing `TRANSCRIPTION:` sends the extracted transcript through the
chunker once; otherwise the structured-document scan runs. -/
def process_txt_file (content : List Char) : List (List Char) :=
  if (afterFirst tMarker content).isSome then split_content (transcriptOf content) 2000
  else structLoop (splitOn '\n' content) []

/-! ## Resilient Upload Batcher (`ingest_data`, step 5) -/

/-- `wait_time = 5 * (attempt + 1)` for a zero-based attempt index. -/
def backoff (attempt : Nat) : Nat := 5 * (attempt + 1)

/-- The `for attempt in range(max_retries)` retry loop for one batch.  The
upload outcome is abstracted as an oracle `f : attempt index → succeeded?`.
First argument: remaining iterations; second: current zero-based attempt
index.  Returns (succeeded, attempts made, total backoff slept): on success
break; on failure sleep `backoff attempt` and retry unless this was the last
permitted attempt. -/
def retryLoop (f : Nat → Bool) : Nat → Nat → Bool × Nat × Nat
  | 0, attempt => (false, attempt, 0)
  | r + 1, attempt =>
    if f attempt then (true, attempt + 1, 0)
    else if r = 0 then (false, attempt + 1, 0)
    else
      let q := retryLoop f r (attempt + 1)
      (q.1, q.2.1, q.2.2 + backoff attempt)

/-- One batch of `ingest_data` run under the retry policy, starting at
attempt 0. -/
def ingest_retry (f : Nat → Bool) (maxRetries : Nat) : Bool × Nat × Nat :=
  retryLoop f maxRetries 0

/-- The outer `for i in range(0, total_chunks, batch_size)` loop: batches are
attempted strictly sequentially and the `return` on exhaustion halts the run.
`F i a` tells whether batch `i`'s upload succeeds on attempt `a`.  Returns
how many batches were attempted. -/
def ingestBatches (F : Nat → Nat → Bool) (maxRetries : Nat) : Nat → List Unit → Nat
  | _, [] => 0
  | i, _ :: bs =>
    if (retryLoop (F i) maxRetries 0).1 then 1 + ingestBatches F maxRetries (i + 1) bs
    else 1

/-! ## File decoding (`process_txt_file` header / `ingest_data` step 3)

A file on disk is abstracted by the pair of decode outcomes
`(utf-8 result, latin-1 result)`, each `Option` (a failed decode raises
`UnicodeDecodeError`, modelled as `none`). -/

/-- The export path's read: `open(..., encoding='utf-8')` with
`except UnicodeDecodeError: open(..., encoding='latin-1')`; a failure of both
propagates as an exception (caught per file in `convert_to_csv`). -/
def read_with_fallback (u l : Option (List Char)) : Except Unit (List Char) :=
  match u with
  | some s => Except.ok s
  | none =>
    match l with
    | some s => Except.ok s
    | none => Except.error ()

/-- The file loop of `convert_to_csv`: each file is processed under its own
`try/except`, so every file yields an independent outcome and the loop never
aborts. -/
def export_read_all :
    List (Option (List Char) × Option (List Char)) → List (Except Unit (List Char))
  | [] => []
  | f :: rest => read_with_fallback f.1 f.2 :: export_read_all rest

/-- The file loop of `ingest_data` step 3: `open(..., encoding='utf-8')` with
no fallback and no per-file handler — a decode failure propagates out of the
loop and aborts the run, regardless of whether latin-1 could decode the
file. -/
def ingest_read_all :
    List (Option (List Char) × Option (List Char)) → Except Unit (List (List Char))
  | [] => Except.ok []
  | f :: rest =>
    match f.1 with
    | none => Except.error ()
    | some s =>
      match ingest_read_all rest with
      | Except.error e => Except.error e
      | Except.ok ss => Except.ok (s :: ss)

/-! ## NUL cleaning (`ingest_data` step 3) -/

/-- Python's `text.replace(old, new)` for a single-character pattern. -/
def pyReplaceChar (old : Char) (new : List Char) : List Char → List Char
  | [] => []
  | c :: cs =>
    if c = old then new ++ pyReplaceChar old new cs
    else c :: pyReplaceChar old new cs

/-- `cleaned_text = text.replace('\u0000', '')`. -/
def cleaned_text (s : List Char) : List Char :=
  pyReplaceChar '\x00' [] s

/-- The ingestion chunking step applied to one document: the text is cleaned
first, then handed to the recursive character splitter (an external
collaborator, abstracted as `splitter`). -/
def ingestChunksOf (splitter : List Char → List (List Char)) (text : List Char) :
    List (List Char) :=
  splitter (cleaned_text text)

theorem utf8Len_nil : utf8Len [] = 0 := rfl

theorem utf8Len_reverse (s : List Char) : utf8Len s.reverse = utf8Len s := by
  simp [utf8Len, List.sum_reverse]

theorem utf8Len_dropWhile_le (p : Char → Bool) (s : List Char) :
    utf8Len (s.dropWhile p) ≤ utf8Len s := by
  induction s with
  | nil => simp
  | cons c cs ih =>
    rw [List.dropWhile_cons]
    by_cases h : p c
    · rw [if_pos h]
      have hc : utf8Len (c :: cs) = charUtf8Size c + utf8Len cs := by
        simp [utf8Len]
      omega
    · rw [if_neg h]

theorem utf8Len_pyStrip_le (s : List Char) : utf8Len (pyStrip s) ≤ utf8Len s := by
  unfold pyStrip
  calc utf8Len ((s.dropWhile isPySpace).reverse.dropWhile isPySpace).reverse
      = utf8Len ((s.dropWhile isPySpace).reverse.dropWhile isPySpace) :=
        utf8Len_reverse _
    _ ≤ utf8Len (s.dropWhile isPySpace).reverse := utf8Len_dropWhile_le _ _
    _ = utf8Len (s.dropWhile isPySpace) := utf8Len_reverse _
    _ ≤ utf8Len s := utf8Len_dropWhile_le _ _

theorem chunkLoop_nil (maxL : Nat) (cur : List Char) :
    chunkLoop maxL [] cur = if cur = [] then [] else [pyStrip cur] := rfl

theorem chunkLoop_cons (maxL : Nat) (s : List Char) (rest : List (List Char))
    (cur : List Char) :
    chunkLoop maxL (s :: rest) cur =
      if utf8Len (cur ++ s) ≤ maxL then chunkLoop maxL rest (cur ++ s)
      else if cur = [] then chunkLoop maxL rest s
      else pyStrip cur :: chunkLoop maxL rest s := rfl

theorem chunkLoop_size (maxL : Nat) (S : List (List Char)) :
    ∀ (ss : List (List Char)) (cur : List Char),
      (∀ s ∈ ss, s ∈ S) →
      (cur = [] ∨ utf8Len cur ≤ maxL ∨ cur ∈ S) →
      ∀ part ∈ chunkLoop maxL ss cur,
        utf8Len part ≤ maxL ∨ ∃ s ∈ S, part = pyStrip s ∧ maxL < utf8Len s := by
  intro ss
  induction ss with
  | nil =>
    intro cur _ hcur part hp
    rw [chunkLoop_nil] at hp
    by_cases hc : cur = []
    · rw [if_pos hc] at hp
      exact absurd hp (List.not_mem_nil part)
    · rw [if_neg hc] at hp
      rcases List.mem_singleton.mp hp with rfl
      rcases hcur with h | h | h
      · exact absurd h hc
      · left
        exact le_trans (utf8Len_pyStrip_le cur) h
      · by_cases hlen : utf8Len (pyStrip cur) ≤ maxL
        · left; exact hlen
        · right
          refine ⟨cur, h, rfl, ?_⟩
          have := utf8Len_pyStrip_le cur
          omega
  | cons s rest ih =>
    intro cur hss hcur part hp
    have hsS : s ∈ S := hss s (List.mem_cons_self s rest)
    have hrest : ∀ x ∈ rest, x ∈ S := fun x hx => hss x (List.mem_cons_of_mem s hx)
    rw [chunkLoop_cons] at hp
    by_cases h1 : utf8Len (cur ++ s) ≤ maxL
    · rw [if_pos h1] at hp
      exact ih (cur ++ s) hrest (Or.inr (Or.inl h1)) part hp
    · rw [if_neg h1] at hp
      by_cases h2 : cur = []
      · rw [if_pos h2] at hp
        exact ih s hrest (Or.inr (Or.inr hsS)) part hp
      · rw [if_neg h2] at hp
        rcases List.mem_cons.mp hp with rfl | hp2
        · rcases hcur with h | h | h
          · exact absurd h h2
          · left
            exact le_trans (utf8Len_pyStrip_le cur) h
          · by_cases hlen : utf8Len (pyStrip cur) ≤ maxL
            · left; exact hlen
            · right
              refine ⟨cur, h, rfl, ?_⟩
              have := utf8Len_pyStrip_le cur
              omega
        · exact ih s hrest (Or.inr (Or.inr hsS)) part hp2

/-! ### Claim theorems for the Sentence-Bounded Chunker -/

/-- C2: the spec says concatenating the parts of a block split into more than
one part reproduces the sentence sequence with no sentence omitted, in
particular when the final sentence has no trailing terminator.  The code
contradicts this: `range(0, len(sentences)-1, 2)` never pairs the final
dangling text piece of the regex split, so the trailing unterminated
sentence is silently dropped.  Here the 8-byte block `aa.bb.cc` with ceiling
4 splits into two parts whose concatenation is `aa.bb.` — the final sentence
`cc` is omitted. -/
theorem split_content_drops_final_sentence :
    split_content ("aa.bb.cc".toList) 4 = ["aa.".toList, "bb.".toList] ∧
    (split_content ("aa.bb.cc".toList) 4).flatten = "aa.bb.".toList := by
  exact ⟨by decide, by decide⟩

/-- C4: every part emitted by `split_content` has UTF-8 byte length within
the ceiling, except a part that is the (stripped) single sentence whose own
byte length exceeds the ceiling, which is carried whole into its own part
rather than fragmented. -/
theorem split_content_parts_bounded (content : List Char) (maxL : Nat)
    (part : List Char) (hp : part ∈ split_content content maxL) :
    utf8Len part ≤ maxL ∨
    ∃ s ∈ sentence_list content, part = pyStrip s ∧ maxL < utf8Len s := by
  unfold split_content at hp
  by_cases h : utf8Len content ≤ maxL
  · rw [if_pos h] at hp
    rcases List.mem_singleton.mp hp with rfl
    left; exact h
  · rw [if_neg h] at hp
    exact chunkLoop_size maxL (sentence_list content) (sentence_list content) []
      (fun s hs => hs) (Or.inl rfl) part hp

/-- Witness for C4 at a concrete block with ceiling 4, including a sentence
(`aaaaaa.`) exceeding the ceiling on its own. -/
theorem split_content_parts_bounded_witness :
    ("aaaaaa.".toList ∈ split_content "aaaaaa. b.".toList 4) ∧
    (utf8Len "aaaaaa.".toList ≤ 4 ∨
      ∃ s ∈ sentence_list "aaaaaa. b.".toList,
        "aaaaaa.".toList = pyStrip s ∧ 4 < utf8Len s) :=
  ⟨by decide,
   split_content_parts_bounded "aaaaaa. b.".toList 4 "aaaaaa.".toList (by decide)⟩

/-- C8 counterexample: the 3-byte block consisting of `a` surrounded by
spaces fits the 2000-byte ceiling and is returned as one part equal to the
input itself — not equal to the trimmed input, refuting the claim as
stated. -/
theorem split_content_short_not_trimmed :
    split_content " a ".toList 2000 = [" a ".toList] ∧
    pyStrip " a ".toList = "a".toList ∧
    split_content " a ".toList 2000 ≠ [pyStrip " a ".toList] := by
  exact ⟨by decide, by decide, by decide⟩

/-- C8 (amended): a block whose UTF-8 byte length is at most the ceiling is
returned as exactly one part equal to the input block unchanged (which
coincides with the trimmed input whenever the block is already stripped, as
at both call sites of `split_content`). -/
theorem split_content_short_id (content : List Char) (maxL : Nat)
    (h : utf8Len content ≤ maxL) : split_content content maxL = [content] := by
  unfold split_content
  rw [if_pos h]

/-- Witness for the amended C8 theorem at the block `abc` with ceiling
2000. -/
theorem split_content_short_id_witness :
    utf8Len "abc".toList ≤ 2000 ∧ split_content "abc".toList 2000 = ["abc".toList] :=
  ⟨by decide, split_content_short_id "abc".toList 2000 (by decide)⟩

/-! ### Non-emptiness of emitted contents (C7) -/

theorem dropWhile_ne_nil_nonp (p : Char → Bool) (s : List Char)
    (h : s.dropWhile p ≠ []) : ∃ c ∈ s.dropWhile p, p c = false := by
  induction s with
  | nil => exact absurd rfl h
  | cons a as ih =>
    rw [List.dropWhile_cons] at h ⊢
    by_cases ha : p a
    · rw [if_pos ha] at h ⊢
      exact ih h
    · rw [if_neg ha]
      exact ⟨a, List.mem_cons_self a as, by simpa using ha⟩

theorem mem_dropWhile_of_nonp (p : Char → Bool) (c : Char) (s : List Char)
    (hc : p c = false) (h : c ∈ s) : c ∈ s.dropWhile p := by
  induction s with
  | nil => cases h
  | cons a as ih =>
    rw [List.dropWhile_cons]
    by_cases ha : p a
    · rw [if_pos ha]
      rcases List.mem_cons.mp h with rfl | h2
      · rw [ha] at hc; cases hc
      · exact ih h2
    · rw [if_neg ha]
      exact h

theorem mem_pyStrip (c : Char) (s : List Char)
    (hc : isPySpace c = false) (h : c ∈ s) : c ∈ pyStrip s := by
  unfold pyStrip
  rw [List.mem_reverse]
  apply mem_dropWhile_of_nonp _ _ _ hc
  rw [List.mem_reverse]
  exact mem_dropWhile_of_nonp _ _ _ hc h

theorem pyStrip_ne_nil_nonspace (s : List Char) (h : pyStrip s ≠ []) :
    ∃ c ∈ pyStrip s, isPySpace c = false := by
  unfold pyStrip at h ⊢
  have h2 : (s.dropWhile isPySpace).reverse.dropWhile isPySpace ≠ [] := by
    intro hnil
    rw [hnil] at h
    exact h rfl
  obtain ⟨c, hc1, hc2⟩ := dropWhile_ne_nil_nonp isPySpace _ h2
  exact ⟨c, List.mem_reverse.mpr hc1, hc2⟩

theorem pyStrip_ne_nil_of_mem_nonspace (c : Char) (s : List Char)
    (hc : isPySpace c = false) (h : c ∈ s) : pyStrip s ≠ [] := by
  intro hnil
  have := mem_pyStrip c s hc h
  rw [hnil] at this
  exact absurd this (List.not_mem_nil c)

theorem isTermChar_not_space (c : Char) (h : isTermChar c = true) :
    isPySpace c = false := by
  simp only [isTermChar, Bool.or_eq_true, decide_eq_true_eq] at h
  rcases h with (rfl | rfl) | rfl <;> decide

theorem splitTerm_seps (s : List Char) :
    ∀ g ∈ (splitTerm s).2, ∃ c ∈ g.1, isTermChar c = true := by
  induction s with
  | nil => intro g hg; cases hg
  | cons a as ih =>
    intro g hg
    simp only [splitTerm] at hg
    by_cases ha : isTermChar a
    · rw [if_pos ha] at hg
      rcases hr : splitTerm as with ⟨t, gs⟩
      rw [hr] at ih hg
      rcases ht : t with _ | ⟨x, xs⟩
      · rcases hgs : gs with _ | ⟨g0, gs0⟩
        · simp only [ht, hgs] at hg
          rcases List.mem_cons.mp hg with rfl | h2
          · exact ⟨a, List.mem_cons_self a [], ha⟩
          · cases h2
        · simp only [ht, hgs] at hg
          rcases List.mem_cons.mp hg with rfl | h2
          · obtain ⟨c, hc1, hc2⟩ := ih g0 (by rw [hgs]; exact List.mem_cons_self g0 gs0)
            exact ⟨c, List.mem_cons_of_mem a hc1, hc2⟩
          · exact ih g (by rw [hgs]; exact List.mem_cons_of_mem g0 h2)
      · simp only [ht] at hg
        rcases List.mem_cons.mp hg with rfl | h2
        · exact ⟨a, List.mem_cons_self a [], ha⟩
        · exact ih g h2
    · rw [if_neg ha] at hg
      exact ih g hg

theorem pairUp_nil : pairUp [] = [] := rfl

theorem pairUp_single (t : List Char) : pairUp [t] = [] := rfl

theorem pairUp_cons2 (a b : List Char) (r : List (List Char)) :
    pairUp (a :: b :: r) = (a ++ b) :: pairUp r := rfl

theorem pairUp_seqFlat_term (groups : List (List Char × List Char))
    (hg : ∀ g ∈ groups, ∃ c ∈ g.1, isTermChar c = true) :
    ∀ t, ∀ x ∈ pairUp (t :: seqFlat groups), ∃ c ∈ x, isTermChar c = true := by
  induction groups with
  | nil =>
    intro t x hx
    rw [seqFlat, pairUp_single] at hx
    cases hx
  | cons g gs ih =>
    intro t x hx
    rw [seqFlat, pairUp_cons2] at hx
    rcases List.mem_cons.mp hx with rfl | hx2
    · obtain ⟨c, hc1, hc2⟩ := hg g (List.mem_cons_self g gs)
      exact ⟨c, List.mem_append_right t hc1, hc2⟩
    · exact ih (fun g' h' => hg g' (List.mem_cons_of_mem g h')) g.2 x hx2

theorem sentence_list_term (s : List Char) :
    ∀ x ∈ sentence_list s, ∃ c ∈ x, isTermChar c = true := by
  intro x hx
  unfold sentence_list reSplitTerm at hx
  exact pairUp_seqFlat_term (splitTerm s).2 (splitTerm_seps s) (splitTerm s).1 x hx

theorem chunkLoop_parts_strip (maxL : Nat) :
    ∀ (ss : List (List Char)) (cur : List Char),
      (∀ s ∈ ss, ∃ c ∈ s, isTermChar c = true) →
      (cur = [] ∨ ∃ c ∈ cur, isTermChar c = true) →
      ∀ part ∈ chunkLoop maxL ss cur,
        ∃ w, part = pyStrip w ∧ ∃ c ∈ w, isTermChar c = true := by
  intro ss
  induction ss with
  | nil =>
    intro cur _ hcur part hp
    rw [chunkLoop_nil] at hp
    by_cases hc : cur = []
    · rw [if_pos hc] at hp
      exact absurd hp (List.not_mem_nil part)
    · rw [if_neg hc] at hp
      rcases List.mem_singleton.mp hp with rfl
      rcases hcur with h | h
      · exact absurd h hc
      · exact ⟨cur, rfl, h⟩
  | cons s rest ih =>
    intro cur hss hcur part hp
    have hsP : ∃ c ∈ s, isTermChar c = true := hss s (List.mem_cons_self s rest)
    have hrest : ∀ x ∈ rest, ∃ c ∈ x, isTermChar c = true :=
      fun x hx => hss x (List.mem_cons_of_mem s hx)
    rw [chunkLoop_cons] at hp
    by_cases h1 : utf8Len (cur ++ s) ≤ maxL
    · rw [if_pos h1] at hp
      refine ih (cur ++ s) hrest (Or.inr ?_) part hp
      obtain ⟨c, hc1, hc2⟩ := hsP
      exact ⟨c, List.mem_append_right cur hc1, hc2⟩
    · rw [if_neg h1] at hp
      by_cases h2 : cur = []
      · rw [if_pos h2] at hp
        exact ih s hrest (Or.inr hsP) part hp
      · rw [if_neg h2] at hp
        rcases List.mem_cons.mp hp with rfl | hp2
        · rcases hcur with h | h
          · exact absurd h h2
          · exact ⟨cur, rfl, h⟩
        · exact ih s hrest (Or.inr hsP) part hp2

theorem split_content_strip_ne (t : List Char) (maxL : Nat)
    (ht : pyStrip t ≠ []) :
    ∀ p ∈ split_content t maxL, pyStrip p ≠ [] := by
  intro p hp
  unfold split_content at hp
  by_cases h : utf8Len t ≤ maxL
  · rw [if_pos h] at hp
    rcases List.mem_singleton.mp hp with rfl
    exact ht
  · rw [if_neg h] at hp
    obtain ⟨w, rfl, c, hcw, hct⟩ :=
      chunkLoop_parts_strip maxL (sentence_list t) [] (sentence_list_term t)
        (Or.inl rfl) p hp
    have hcs : isPySpace c = false := isTermChar_not_space c hct
    exact pyStrip_ne_nil_of_mem_nonspace c (pyStrip w) hcs (mem_pyStrip c w hcs hcw)

theorem joinSpace_nil : joinSpace [] = [] := rfl

theorem joinSpace_single (b : List Char) : joinSpace [b] = b := rfl

theorem joinSpace_cons2 (b y : List Char) (ys : List (List Char)) :
    joinSpace (b :: y :: ys) = b ++ ' ' :: joinSpace (y :: ys) := rfl

theorem mem_joinSpace (c : Char) (b : List Char) (bs : List (List Char))
    (hb : b ∈ bs) (hc : c ∈ b) : c ∈ joinSpace bs := by
  induction bs with
  | nil => cases hb
  | cons x xs ih =>
    rcases List.mem_cons.mp hb with rfl | h
    · cases xs with
      | nil => rw [joinSpace_single]; exact hc
      | cons y ys =>
        rw [joinSpace_cons2]
        exact List.mem_append_left _ hc
    · cases xs with
      | nil => cases h
      | cons y ys =>
        rw [joinSpace_cons2]
        exact List.mem_append_right _ (List.mem_cons_of_mem ' ' (ih h))

theorem flush_parts (buf : List (List Char)) (hbne : buf ≠ [])
    (hbuf : ∀ b ∈ buf, ∃ c ∈ b, isPySpace c = false) :
    ∀ p ∈ split_content (joinSpace buf) 2000, pyStrip p ≠ [] := by
  apply split_content_strip_ne
  cases buf with
  | nil => exact absurd rfl hbne
  | cons b bs =>
    obtain ⟨c, hc1, hc2⟩ := hbuf b (List.mem_cons_self b bs)
    exact pyStrip_ne_nil_of_mem_nonspace c _ hc2
      (mem_joinSpace c b (b :: bs) (List.mem_cons_self b bs) hc1)

theorem structLoop_nil_eq (buf : List (List Char)) :
    structLoop [] buf =
      if buf = [] then [] else split_content (joinSpace buf) 2000 := rfl

theorem structLoop_cons_eq (line : List Char) (rest : List (List Char))
    (buf : List (List Char)) :
    structLoop (line :: rest) buf =
      if startsLC (pyStrip line) then
        (if buf = [] then [] else split_content (joinSpace buf) 2000) ++ structLoop rest []
      else if pyStrip line = [] then structLoop rest buf
      else structLoop rest (buf ++ [pyStrip line]) := rfl

theorem structLoop_parts (lines : List (List Char)) : ∀ (buf : List (List Char)),
    (∀ b ∈ buf, ∃ c ∈ b, isPySpace c = false) →
    ∀ p ∈ structLoop lines buf, pyStrip p ≠ [] := by
  induction lines with
  | nil =>
    intro buf hbuf p hp
    rw [structLoop_nil_eq] at hp
    by_cases hb : buf = []
    · rw [if_pos hb] at hp
      exact absurd hp (List.not_mem_nil p)
    · rw [if_neg hb] at hp
      exact flush_parts buf hb hbuf p hp
  | cons line rest ih =>
    intro buf hbuf p hp
    rw [structLoop_cons_eq] at hp
    by_cases h1 : startsLC (pyStrip line)
    · rw [if_pos h1] at hp
      rcases List.mem_append.mp hp with h | h
      · by_cases hb : buf = []
        · rw [if_pos hb] at h
          exact absurd h (List.not_mem_nil p)
        · rw [if_neg hb] at h
          exact flush_parts buf hb hbuf p h
      · exact ih [] (fun b hb => absurd hb (List.not_mem_nil b)) p h
    · rw [if_neg h1] at hp
      by_cases h2 : pyStrip line = []
      · rw [if_pos h2] at hp
        exact ih buf hbuf p hp
      · rw [if_neg h2] at hp
        refine ih (buf ++ [pyStrip line]) ?_ p hp
        intro b hb
        rcases List.mem_append.mp hb with h | h
        · exact hbuf b h
        · rcases List.mem_singleton.mp h with rfl
          exact pyStrip_ne_nil_nonspace line h2

/-- C7 counterexample: the transcript document whose content is exactly the
marker `TRANSCRIPTION:` has an empty extracted transcript, and the transcript
path emits one ContentRecord whose content field is the empty string —
refuting the claim that no record with empty trimmed content is ever
emitted. -/
theorem transcript_empty_record :
    process_txt_file ("TRANSCRIPTION:".toList) = [[]] := by decide

/-- C7 (amended): every record emitted on the structured-document path has
non-empty content after trimming, and so does every record emitted on the
transcript path provided the extracted transcript is itself non-empty; only a
transcript document whose extracted transcript is empty yields a record with
empty content. -/
theorem process_content_nonempty (content : List Char)
    (h : (afterFirst tMarker content).isSome = false ∨ transcriptOf content ≠ [])
    (p : List Char) (hp : p ∈ process_txt_file content) :
    pyStrip p ≠ [] := by
  unfold process_txt_file at hp
  by_cases hm : (afterFirst tMarker content).isSome
  · rw [if_pos hm] at hp
    have htr : transcriptOf content ≠ [] := by
      rcases h with h | h
      · rw [h] at hm; cases hm
      · exact h
    refine split_content_strip_ne _ 2000 ?_ p hp
    cases haf : afterFirst tMarker content with
    | none =>
      rw [haf] at hm
      cases hm
    | some rest =>
      have he : transcriptOf content = pyStrip (beforeFirst eqMarker rest) := by
        unfold transcriptOf
        rw [haf]
      rw [he] at htr ⊢
      obtain ⟨c, hc1, hc2⟩ := pyStrip_ne_nil_nonspace _ htr
      exact pyStrip_ne_nil_of_mem_nonspace c _ hc2 hc1
  · rw [if_neg hm] at hp
    exact structLoop_parts (splitOn '\n' content) []
      (fun b hb => absurd hb (List.not_mem_nil b)) p hp

/-- Witness for the amended C7 theorem: the structured document `Hi there.`
yields the single record content `Hi there.`, non-empty after trimming. -/
theorem process_content_nonempty_witness :
    ((afterFirst tMarker "Hi there.".toList).isSome = false ∨
      transcriptOf "Hi there.".toList ≠ []) ∧
    ("Hi there.".toList ∈ process_txt_file ("Hi there.".toList)) ∧
    pyStrip "Hi there.".toList ≠ [] :=
  ⟨Or.inl (by decide), by decide,
   process_content_nonempty "Hi there.".toList (Or.inl (by decide))
     "Hi there.".toList (by decide)⟩

/-! ### Retry behavior of the Resilient Upload Batcher (C5) -/

theorem retryLoop_zero (f : Nat → Bool) (a : Nat) :
    retryLoop f 0 a = (false, a, 0) := rfl

theorem retryLoop_succ (f : Nat → Bool) (r a : Nat) :
    retryLoop f (r + 1) a =
      if f a then (true, a + 1, 0)
      else if r = 0 then (false, a + 1, 0)
      else ((retryLoop f r (a + 1)).1, (retryLoop f r (a + 1)).2.1,
            (retryLoop f r (a + 1)).2.2 + backoff a) := rfl

theorem backoff_sum_shift (a k : Nat) :
    ∑ j ∈ Finset.range (k + 1), backoff (a + j)
      = (∑ j ∈ Finset.range k, backoff (a + 1 + j)) + backoff a := by
  rw [Finset.sum_range_succ']
  have h1 : ∀ j ∈ Finset.range k, backoff (a + (j + 1)) = backoff (a + 1 + j) := by
    intro j _
    congr 1
    omega
  rw [Finset.sum_congr rfl h1]
  norm_num

theorem retryLoop_first_success :
    ∀ (k : Nat) (f : Nat → Bool) (r a : Nat), k < r →
      (∀ j, j < k → f (a + j) = false) → f (a + k) = true →
      retryLoop f r a = (true, a + k + 1, ∑ j ∈ Finset.range k, backoff (a + j)) := by
  intro k
  induction k with
  | zero =>
    intro f r a hk hfail hsucc
    cases r with
    | zero => exact absurd hk (by omega)
    | succ r1 =>
      rw [retryLoop_succ]
      have hfa : f a = true := by simpa using hsucc
      rw [if_pos hfa]
      simp
  | succ k ih =>
    intro f r a hk hfail hsucc
    cases r with
    | zero => exact absurd hk (by omega)
    | succ r1 =>
      rw [retryLoop_succ]
      have hf0 : f a = false := by simpa using hfail 0 (by omega)
      rw [if_neg (by simp [hf0])]
      rw [if_neg (show ¬ r1 = 0 by omega)]
      have hfail2 : ∀ j, j < k → f (a + 1 + j) = false := by
        intro j hj
        have h := hfail (j + 1) (by omega)
        have e : a + (j + 1) = a + 1 + j := by omega
        rw [e] at h
        exact h
      have hsucc2 : f (a + 1 + k) = true := by
        have e : a + 1 + k = a + (k + 1) := by omega
        rw [e]
        exact hsucc
      rw [ih f r1 (a + 1) (by omega) hfail2 hsucc2]
      simp only [Prod.mk.injEq]
      refine ⟨trivial, by omega, ?_⟩
      rw [backoff_sum_shift]

theorem retryLoop_all_fail (f : Nat → Bool) (hf : ∀ a, f a = false) :
    ∀ (r a : Nat), retryLoop f (r + 1) a =
      (false, a + r + 1, ∑ j ∈ Finset.range r, backoff (a + j)) := by
  intro r
  induction r with
  | zero =>
    intro a
    rw [retryLoop_succ, if_neg (by simp [hf a]), if_pos rfl]
    simp
  | succ r1 ih =>
    intro a
    rw [retryLoop_succ, if_neg (by simp [hf a]),
      if_neg (show ¬ r1 + 1 = 0 by omega)]
    rw [ih (a + 1)]
    simp only [Prod.mk.injEq]
    refine ⟨trivial, by omega, ?_⟩
    rw [backoff_sum_shift]

theorem ingestBatches_cons (F : Nat → Nat → Bool) (maxR i : Nat) (bs : List Unit) :
    ingestBatches F maxR i (() :: bs) =
      if (retryLoop (F i) maxR 0).1 then 1 + ingestBatches F maxR (i + 1) bs
      else 1 := rfl

/-- C5: with max-retries 5, an upload oracle failing exactly `k < 5` times
then succeeding leaves the batch succeeded after exactly `k + 1` attempts with
total backoff `5 + 10 + ... + 5k` seconds; an always-failing oracle leaves the
batch exhausted after exactly 5 attempts (having slept 5+10+15+20 = 50
seconds), and the run halts with no further batch attempted. -/
theorem ingest_retry_behavior :
    (∀ (f : Nat → Bool) (k : Nat), k < 5 →
       (∀ a, a < k → f a = false) → f k = true →
       ingest_retry f 5 = (true, k + 1, ∑ j ∈ Finset.range k, backoff j)) ∧
    (∀ f : Nat → Bool, (∀ a, f a = false) →
       ingest_retry f 5 = (false, 5, 50)) ∧
    (∀ (F : Nat → Nat → Bool) (bs : List Unit), (∀ a, F 0 a = false) →
       ingestBatches F 5 0 (() :: bs) = 1) := by
  refine ⟨?_, ?_, ?_⟩
  · intro f k hk hfail hsucc
    unfold ingest_retry
    rw [retryLoop_first_success k f 5 0 hk
      (fun j hj => by simpa using hfail j hj) (by simpa using hsucc)]
    simp only [Prod.mk.injEq]
    refine ⟨trivial, by omega, Finset.sum_congr rfl fun j _ => by congr 1; omega⟩
  · intro f hf
    unfold ingest_retry
    rw [show (5 : Nat) = 4 + 1 from rfl, retryLoop_all_fail f hf 4 0]
    norm_num [Finset.sum_range_succ, backoff]
  · intro F bs hF
    rw [ingestBatches_cons,
      show (5 : Nat) = 4 + 1 from rfl, retryLoop_all_fail (F 0) hF 4 0]
    rfl

/-- Witness for C5: an oracle failing attempts 0 and 1 and succeeding on
attempt 2 yields success after 3 attempts and 15 seconds of backoff; the
always-failing oracle yields exhaustion at (false, 5 attempts, 50 seconds)
and only the first of two batches is attempted. -/
theorem ingest_retry_behavior_witness :
    ingest_retry (fun a => decide (2 ≤ a)) 5 = (true, 3, 15) ∧
    ingest_retry (fun _ => false) 5 = (false, 5, 50) ∧
    ingestBatches (fun _ _ => false) 5 0 [(), ()] = 1 := by
  refine ⟨?_, ?_, ?_⟩
  · have h := ingest_retry_behavior.1 (fun a => decide (2 ≤ a)) 2 (by omega)
      (fun a ha => by simp; omega) (by decide)
    rw [h]
    norm_num [Finset.sum_range_succ, backoff]
  · exact ingest_retry_behavior.2.1 (fun _ => false) (fun _ => rfl)
  · exact ingest_retry_behavior.2.2 (fun _ _ => false) [()] (fun _ => rfl)

/-! ### Decode fallback (C9) -/

/-- C9 counterexample: a file whose UTF-8 decode fails but whose Latin-1
decode would succeed aborts the whole ingestion run — `ingest_data` reads with
`encoding='utf-8'` only, with no fallback and no per-file handler, so the
following file is never processed, refuting the claim for the ingestion
path. -/
theorem ingest_decode_aborts_run :
    ingest_read_all [(none, some "a".toList), (some "b".toList, some "b".toList)]
      = Except.error () := rfl

/-- C9 (amended): on the export path every file is read as UTF-8, re-read
with the Latin-1 fallback on decode failure, and a file failing both decodes
yields a per-file error while the remaining files are still processed; on the
ingestion path a file is read as UTF-8 only, and a decode failure aborts the
run regardless of the Latin-1 outcome. -/
theorem decode_fallback_behavior :
    (∀ (s : List Char) (l : Option (List Char)),
        read_with_fallback (some s) l = Except.ok s) ∧
    (∀ s : List Char, read_with_fallback none (some s) = Except.ok s) ∧
    (read_with_fallback none none = Except.error ()) ∧
    (∀ (u l : Option (List Char)) (rest : List (Option (List Char) × Option (List Char))),
        export_read_all ((u, l) :: rest)
          = read_with_fallback u l :: export_read_all rest) ∧
    (∀ (l : Option (List Char)) (rest : List (Option (List Char) × Option (List Char))),
        ingest_read_all ((none, l) :: rest) = Except.error ()) :=
  ⟨fun _ _ => rfl, fun _ => rfl, rfl, fun _ _ _ => rfl, fun _ _ => rfl⟩

/-! ### NUL cleaning (C10) -/

/-- C10: `text.replace('\u0000', '')` removes every NUL character and keeps
every other character unchanged and in order — it equals filtering out NUL —
and the ingestion chunking step applies the splitter to exactly this cleaned
text. -/
theorem cleaned_text_removes_only_nul (s : List Char)
    (splitter : List Char → List (List Char)) :
    cleaned_text s = s.filter (fun c => c ≠ '\x00') ∧
    ingestChunksOf splitter s = splitter (s.filter (fun c => c ≠ '\x00')) := by
  have h : cleaned_text s = s.filter (fun c => c ≠ '\x00') := by
    unfold cleaned_text
    induction s with
    | nil => rfl
    | cons c cs ih =>
      simp only [pyReplaceChar, List.filter_cons]
      by_cases hc : c = '\x00'
      · rw [if_pos hc]
        simp [hc, ih]
      · rw [if_neg hc]
        simp [hc, ih]
  refine ⟨h, ?_⟩
  unfold ingestChunksOf
  rw [h]

theorem utf8Len_append (s t : List Char) : utf8Len (s ++ t) = utf8Len s + utf8Len t := by
  simp [utf8Len]

theorem utf8Len_replicate (n : Nat) (c : Char) :
    utf8Len (List.replicate n c) = n * charUtf8Size c := by
  induction n with
  | zero => simp [utf8Len]
  | succ n ih =>
    rw [List.replicate_succ]
    simp only [utf8Len, List.map_cons, List.sum_cons] at ih ⊢
    rw [ih]; ring

theorem headerSize_eq : headerSize = 51 := by decide

theorem charUtf8Size_a : charUtf8Size 'a' = 1 := by decide

theorem utf8Len_big : utf8Len (List.replicate 4194304 'a') = 4194304 := by
  rw [utf8Len_replicate, charUtf8Size_a, Nat.mul_one]

theorem entrySize_bigEntry : entrySize bigEntry = 4194311 := by
  have h : ∀ l : List Char, utf8Len l = 4194304 →
      entrySize ⟨[], [], [], [], [], [], l⟩ = 4194311 := by
    intro l hl
    simp [entrySize, utf8Len] at hl ⊢
    omega
  exact h _ utf8Len_big

theorem writeCsvAux_cons (m c : Nat) (e : Entry) (rest : List Entry) :
    writeCsvAux m c (e :: rest) =
      if c + entrySize e > m then ([], e :: rest)
      else (e :: (writeCsvAux m (c + entrySize e) rest).1,
            (writeCsvAux m (c + entrySize e) rest).2) := rfl

theorem write_csv_file_bigEntry :
    write_csv_file [bigEntry] 4194304 = ([], [bigEntry]) := by
  show writeCsvAux 4194304 headerSize [bigEntry] = ([], [bigEntry])
  rw [writeCsvAux_cons, entrySize_bigEntry, headerSize_eq]
  norm_num

theorem packFuel_cons (m fuel : Nat) (e : Entry) (l : List Entry) :
    packFuel m (fuel + 1) (e :: l) =
      ((write_csv_file (e :: l) m).1 :: (packFuel m fuel (write_csv_file (e :: l) m).2).1,
       (packFuel m fuel (write_csv_file (e :: l) m).2).2) := rfl

theorem packFuel_bigEntry (n : Nat) :
    packFuel 4194304 n [bigEntry] = (List.replicate n [], [bigEntry]) := by
  induction n with
  | zero => rfl
  | succ n ih =>
    rw [packFuel_cons, write_csv_file_bigEntry, List.replicate_succ]
    simp only [ih]

theorem packFuel_nil (m fuel : Nat) : packFuel m fuel [] = ([], []) := by
  cases fuel <;> rfl

theorem packFuel_zero_fst (m : Nat) (rem : List Entry) : (packFuel m 0 rem).1 = [] := by
  cases rem <;> rfl

theorem writeCsvAux_append (m : Nat) (es : List Entry) : ∀ c,
    (writeCsvAux m c es).1 ++ (writeCsvAux m c es).2 = es := by
  induction es with
  | nil => intro c; rfl
  | cons e rest ih =>
    intro c
    rw [writeCsvAux_cons]
    by_cases h : c + entrySize e > m
    · rw [if_pos h]
      rfl
    · rw [if_neg h]
      simp only [List.cons_append]
      rw [ih]

theorem writeCsvAux_size (m : Nat) (es : List Entry) : ∀ c, c ≤ m →
    c + (((writeCsvAux m c es).1).map entrySize).sum ≤ m := by
  induction es with
  | nil => intro c hc; simpa [writeCsvAux]
  | cons e rest ih =>
    intro c hc
    rw [writeCsvAux_cons]
    by_cases h : c + entrySize e > m
    · rw [if_pos h]
      simpa
    · rw [if_neg h]
      simp only [List.map_cons, List.sum_cons]
      have hr := ih (c + entrySize e) (by omega)
      omega

theorem writeCsvAux_progress (m c : Nat) (e : Entry) (rest : List Entry)
    (h : c + entrySize e ≤ m) :
    (writeCsvAux m c (e :: rest)).1 ≠ [] := by
  rw [writeCsvAux_cons, if_neg (by omega)]
  simp

theorem packFuel_exhausts (m : Nat) : ∀ (fuel : Nat) (es : List Entry),
    es.length ≤ fuel →
    (∀ e ∈ es, headerSize + entrySize e ≤ m) →
    (packFuel m fuel es).2 = [] ∧ (packFuel m fuel es).1.flatten = es := by
  intro fuel
  induction fuel with
  | zero =>
    intro es hlen _
    have hnil : es = [] := List.length_eq_zero.mp (Nat.le_zero.mp hlen)
    subst hnil
    simp [packFuel_nil]
  | succ n ih =>
    intro es hlen hfit
    cases es with
    | nil => simp [packFuel_nil]
    | cons e rest =>
      rw [packFuel_cons]
      have happ : (write_csv_file (e :: rest) m).1 ++ (write_csv_file (e :: rest) m).2
          = e :: rest := writeCsvAux_append m (e :: rest) headerSize
      have hne : (write_csv_file (e :: rest) m).1 ≠ [] :=
        writeCsvAux_progress m headerSize e rest (hfit e (List.mem_cons_self e rest))
      have hlen2 : (write_csv_file (e :: rest) m).2.length ≤ n := by
        have hl := congrArg List.length happ
        simp only [List.length_append, List.length_cons] at hl
        have hpos : 0 < (write_csv_file (e :: rest) m).1.length := List.length_pos.mpr hne
        simp only [List.length_cons] at hlen
        omega
      have hfit2 : ∀ x ∈ (write_csv_file (e :: rest) m).2, headerSize + entrySize x ≤ m := by
        intro x hx
        apply hfit
        rw [← happ]
        exact List.mem_append_right _ hx
      obtain ⟨h2, hj⟩ := ih (write_csv_file (e :: rest) m).2 hlen2 hfit2
      refine ⟨h2, ?_⟩
      simp only [List.flatten_cons, hj]
      exact happ

theorem packFuel_batches_le (m : Nat) (hh : headerSize ≤ m) :
    ∀ (fuel : Nat) (es : List Entry) (b : List Entry),
      b ∈ (packFuel m fuel es).1 → headerSize + (b.map entrySize).sum ≤ m := by
  intro fuel
  induction fuel with
  | zero =>
    intro es b hb
    rw [packFuel_zero_fst] at hb
    exact absurd hb (List.not_mem_nil b)
  | succ n ih =>
    intro es b hb
    cases es with
    | nil =>
      rw [packFuel_nil] at hb
      exact absurd hb (List.not_mem_nil b)
    | cons e rest =>
      rw [packFuel_cons] at hb
      rcases List.mem_cons.mp hb with h | h
      · subst h
        exact writeCsvAux_size m (e :: rest) headerSize hh
      · exact ih _ _ h

/-! ### Claim theorems for the Size-Bounded Batch Packer -/

/-- C1: the spec says a record whose serialized size alone exceeds the 4 MiB
ceiling is still placed into its own batch and packing continues.  The code
does the opposite: `write_csv_file` hands back an empty batch together with
the untouched input, so the packing loop of `convert_to_csv` makes no
progress — after three iterations it has produced three empty batches and the
oversized record is still unconsumed. -/
theorem oversized_record_never_batched :
    write_csv_file [bigEntry] 4194304 = ([], [bigEntry]) ∧
    packFuel 4194304 3 [bigEntry] = ([[], [], []], [bigEntry]) := by
  refine ⟨write_csv_file_bigEntry, ?_⟩
  rw [packFuel_bigEntry 3]
  rfl

/-- C3: the spec says packing terminates on every finite record sequence,
including one holding a record whose serialized size alone exceeds the
ceiling.  The code violates this: after any number `n` of iterations of the
`while remaining_entries:` loop of `convert_to_csv` on the single oversized
record, the record is still remaining and only empty batches were emitted,
so the loop never terminates. -/
theorem pack_loop_diverges_on_oversized (n : Nat) :
    packFuel 4194304 n [bigEntry] = (List.replicate n [], [bigEntry]) :=
  packFuel_bigEntry n

/-- C6 counterexample: on the sequence consisting of the single oversized
record, an iteration of the packing loop emits only an empty batch and leaves
the whole input remaining — the concatenation of the produced batches does not
reproduce the input sequence, refuting the claim as stated. -/
theorem pack_not_lossless_on_oversized :
    (packFuel 4194304 1 [bigEntry]).1.flatten = [] ∧
    (packFuel 4194304 1 [bigEntry]).2 = [bigEntry] := by
  have h := packFuel_bigEntry 1
  rw [h]
  exact ⟨rfl, rfl⟩

/-- C6 (amended): for every record sequence in which each record fits into a
fresh batch (header overhead plus serialized record size at most the ceiling),
the packing loop exhausts the input within `es.length` iterations,
concatenating the produced batches in order reproduces the original sequence
exactly, and no batch's serialized size exceeds the ceiling. -/
theorem pack_lossless_and_bounded (m : Nat) (es : List Entry)
    (hh : headerSize ≤ m)
    (hfit : ∀ e ∈ es, headerSize + entrySize e ≤ m) :
    (packFuel m es.length es).2 = [] ∧
    (packFuel m es.length es).1.flatten = es ∧
    ∀ b ∈ (packFuel m es.length es).1, headerSize + (b.map entrySize).sum ≤ m := by
  obtain ⟨h2, hj⟩ := packFuel_exhausts m es.length es le_rfl hfit
  exact ⟨h2, hj, fun b hb => packFuel_batches_le m hh es.length es b hb⟩

/-- Witness for the amended C6 theorem at a concrete two-record input with a
100-byte ceiling. -/
theorem pack_lossless_and_bounded_witness :
    (packFuel 100 ([recA, recB]).length [recA, recB]).2 = [] ∧
    (packFuel 100 ([recA, recB]).length [recA, recB]).1.flatten = [recA, recB] :=
  ⟨(pack_lossless_and_bounded 100 [recA, recB] (by decide) (by decide)).1,
   (pack_lossless_and_bounded 100 [recA, recB] (by decide) (by decide)).2.1⟩

end Superdog
